import Mathlib

/-!
Verification of the assemblyfire structural-topology analysis core.

This file shallowly embeds the relevant parts of the repository:

* `assemblyfire/utils.py`: `determine_bins` (adaptive long-tail binning);
* `assemblyfire/connectivity.py`: `ConnectivityMatrix.__init__`, `submatrix`;
* `assemblyfire/topology.py`: `AssemblyTopology.degree`, `AssemblyTopology.density`;
* `analysis_src/assembly_topology.py`: `_mi_implementation`, `_sign_of_correlation`,
  and the right-closed digitization used by
  `assembly_prob_from_indegree_and_syn_nnd`.

Numeric modelling notes.  The Python code computes with IEEE-754 doubles.  All
the behaviour this file reasons about is exact in IEEE arithmetic (sums and
ratios of small integers, `log2 0 = -inf`, `log2 1 = 0`, `log2 (1/2) = -1`,
`0 * inf = NaN`, NaN propagation), so finite values are modelled by `ℚ` and the
special values by an explicit four-constructor type `FVal`.  `np.log2` is kept
abstract: theorems quantify over any `log2 : ℚ → FVal` that agrees with IEEE
`log2` on the inputs actually reached.
-/

/-- Model of an IEEE-754 double: a finite (exact rational) value, the two
infinities, or NaN. -/
inductive FVal where
  | num : ℚ → FVal
  | pinf : FVal
  | ninf : FVal
  | nan : FVal
  deriving DecidableEq, Repr

namespace FVal

/-- IEEE negation. -/
def neg : FVal → FVal
  | num q => num (-q)
  | pinf => ninf
  | ninf => pinf
  | nan => nan

/-- IEEE addition (exact on finite values). -/
def add : FVal → FVal → FVal
  | num a, num b => num (a + b)
  | num _, pinf => pinf
  | num _, ninf => ninf
  | pinf, num _ => pinf
  | ninf, num _ => ninf
  | pinf, pinf => pinf
  | ninf, ninf => ninf
  | pinf, ninf => nan
  | ninf, pinf => nan
  | nan, _ => nan
  | _, nan => nan

/-- IEEE subtraction, `x - y = x + (-y)`. -/
def sub (x y : FVal) : FVal := x.add y.neg

/-- IEEE multiplication (exact on finite values); `0 * ±inf = NaN`. -/
def mul : FVal → FVal → FVal
  | num a, num b => num (a * b)
  | num a, pinf => if 0 < a then pinf else if a < 0 then ninf else nan
  | num a, ninf => if 0 < a then ninf else if a < 0 then pinf else nan
  | pinf, num b => if 0 < b then pinf else if b < 0 then ninf else nan
  | ninf, num b => if 0 < b then ninf else if b < 0 then pinf else nan
  | pinf, pinf => pinf
  | pinf, ninf => ninf
  | ninf, pinf => ninf
  | ninf, ninf => pinf
  | nan, _ => nan
  | _, nan => nan

/-- IEEE division; `finite/0` is a signed infinity (or NaN for `0/0`),
`finite/±inf = 0`, `±inf/±inf = NaN`. -/
def div : FVal → FVal → FVal
  | nan, _ => nan
  | _, nan => nan
  | num a, num b =>
      if b = 0 then (if a = 0 then nan else if 0 < a then pinf else ninf)
      else num (a / b)
  | num _, pinf => num 0
  | num _, ninf => num 0
  | pinf, num b => if 0 ≤ b then pinf else ninf
  | ninf, num b => if 0 ≤ b then ninf else pinf
  | pinf, pinf => nan
  | pinf, ninf => nan
  | ninf, pinf => nan
  | ninf, ninf => nan

@[simp] lemma nan_add (x : FVal) : add nan x = nan := by cases x <;> rfl

@[simp] lemma add_nan (x : FVal) : add x nan = nan := by cases x <;> rfl

@[simp] lemma neg_nan : neg nan = nan := rfl

@[simp] lemma nan_mul (x : FVal) : mul nan x = nan := by cases x <;> rfl

@[simp] lemma mul_nan (x : FVal) : mul x nan = nan := by cases x <;> rfl

@[simp] lemma nan_sub (x : FVal) : sub nan x = nan := by cases x <;> rfl

@[simp] lemma sub_nan (x : FVal) : sub x nan = nan := by cases x <;> rfl

@[simp] lemma nan_div (x : FVal) : div nan x = nan := by cases x <;> rfl

@[simp] lemma div_nan (x : FVal) : div x nan = nan := by cases x <;> rfl

end FVal

/-!  Entropy / information model (`_mi_implementation`, `_sign_of_correlation`
and their composition in `frac_entropy_explained_by_indegree`, from
`analysis_src/assembly_topology.py`). -/

/-- The scalar binary-entropy helper inside `_mi_implementation`:
`entropy(p) = -np.log2(p) * p - np.log2(1 - p) * (1 - p)`.
No NaN handling is applied here (contrast `entropyVecF`). -/
def entropyF (log2 : ℚ → FVal) (p : ℚ) : FVal :=
  (((log2 p).neg).mul (FVal.num p)).sub ((log2 (1 - p)).mul (FVal.num (1 - p)))

/-- `np.nansum` treatment of one summand: NaN contributes 0. -/
def nanToZero (x : FVal) : FVal := if x = FVal.nan then FVal.num 0 else x

/-- The vectorized entropy helper inside `_mi_implementation`, applied at one
probability: `np.nansum` of the two rows `-log2(p)*p` and `-log2(1-p)*(1-p)`,
so a NaN row (from `0 * log2 0`) is treated as 0. -/
def entropyVecF (log2 : ℚ → FVal) (p : ℚ) : FVal :=
  (nanToZero (((log2 p).neg).mul (FVal.num p))).add
    (nanToZero (((log2 (1 - p)).neg).mul (FVal.num (1 - p))))

/-- `overall_p = (degree_counts * degree_p).sum() / degree_counts.sum()` from
`_mi_implementation` (exact rational arithmetic; the float computation is exact
for the integer/ratio inputs reasoned about here). -/
def overallP (degreeCounts : List ℕ) (degreeP : List ℚ) : ℚ :=
  (List.zipWith (fun c p => (c : ℚ) * p) degreeCounts degreeP).sum /
    ((degreeCounts.map (fun c => (c : ℚ))).sum)

/-- `_mi_implementation(degree_counts, degree_p)`: returns the pair
(membership_entropy, posterior_entropy).  The prior is the scalar `entropy` of
`overall_p`; the posterior is the count-weighted mean of `entropy_vec`. -/
def miImplementation (log2 : ℚ → FVal) (degreeCounts : List ℕ) (degreeP : List ℚ) :
    FVal × FVal :=
  (entropyF log2 (overallP degreeCounts degreeP),
   FVal.div
     ((List.zipWith (fun c p => (entropyVecF log2 p).mul (FVal.num (c : ℚ)))
        degreeCounts degreeP).foldr FVal.add (FVal.num 0))
     (FVal.num ((degreeCounts.map (fun c => (c : ℚ))).sum)))

/-- Sign of a rational, as `np.sign`: 1, -1, or 0. -/
def ratSign (q : ℚ) : ℤ := if 0 < q then 1 else if q < 0 then -1 else 0

/-- The degree-1 least-squares slope computed by `np.polyfit(x, y, 1)[0]`:
`(n·Σxy − Σx·Σy) / (n·Σx² − (Σx)²)`.  The `np.argsort` permutation applied by
`_sign_of_correlation` before the fit permutes both arrays identically, leaving
every one of these symmetric sums unchanged, so it is omitted. -/
def lsqSlope (xs ys : List ℚ) : ℚ :=
  ((xs.length : ℚ) * (List.zipWith (· * ·) xs ys).sum - xs.sum * ys.sum) /
    ((xs.length : ℚ) * (List.zipWith (· * ·) xs xs).sum - xs.sum * xs.sum)

/-- `_sign_of_correlation(degree_vals, degree_p)`: the sign of the
least-squares linear-fit slope of probability versus degree value. -/
def sign_of_correlation (degreeVals degreeP : List ℚ) : ℤ :=
  ratSign (lsqSlope degreeVals degreeP)

/-- The per-(assembly, feature) reduction in `frac_entropy_explained_by_indegree`:
`_sign_of_correlation(vals, probs) * (1.0 - pe / me)` with
`me, pe = _mi_implementation(counts, probs)`.  The code performs this division
unconditionally: no degenerate-prior guard exists on any path. -/
def fracEntropyExplained (log2 : ℚ → FVal) (counts : List ℕ) (probs vals : List ℚ) :
    FVal :=
  let mepe := miImplementation log2 counts probs
  (FVal.num ((sign_of_correlation vals probs : ℤ) : ℚ)).mul
    ((FVal.num 1).sub (mepe.2.div mepe.1))

/-- A concrete `log2` agreeing with IEEE `log2` at the three inputs the
theorems evaluate (0, 1, 1/2); used to instantiate witnesses. -/
def log2Model (q : ℚ) : FVal :=
  if q = 0 then FVal.ninf
  else if q = 1 then FVal.num 0
  else if q = 1 / 2 then FVal.num (-1)
  else FVal.nan

/-!  Connectivity model (`assemblyfire/connectivity.py` and
`assemblyfire/topology.py`).  The sparse matrix is modelled by a total entry
function `adj` over positions `0..n-1` together with the node-id vector
`gids`; matrices extracted by `submatrix`/`matrix` are materialised as lists of
rows so that row/column sums and nonzero counts are explicit. -/

/-- `ConnectivityMatrix(adj_matrix, gids)` state: the stored adjacency (entry
function over positions, with dimension `n`) and the stored node ids.
`__init__` stores both unconditionally (see `construct`). -/
structure ConnectivityMatrix where
  n : ℕ
  adj : ℕ → ℕ → ℚ
  gids : List ℤ

/-- Errors the specification's taxonomy names for this component. -/
inductive ConnError where
  | ShapeMismatch : ConnError
  | UnknownNodeId : ConnError
  deriving DecidableEq, Repr

/-- `ConnectivityMatrix.__init__(adj_matrix, gids)`: stores `self._m`,
`self._gids` and builds the position lookup.  The constructor body contains no
validation and no raise statement, so it always succeeds. -/
def construct (n : ℕ) (adj : ℕ → ℕ → ℚ) (gids : List ℤ) :
    Except ConnError ConnectivityMatrix :=
  Except.ok { n := n, adj := adj, gids := gids }

/-- `self._lookup[g]`: position of node id `g` in the stored id vector
(pandas Series lookup; meaningful for ids that occur in `gids`). -/
def cmIdx (cm : ConnectivityMatrix) (g : ℤ) : ℕ := cm.gids.indexOf g

/-- `self.matrix`, materialised as a list of rows over positions `0..n-1`. -/
def fullMatrix (cm : ConnectivityMatrix) : List (List ℚ) :=
  (List.range cm.n).map (fun i => (List.range cm.n).map (fun j => cm.adj i j))

/-- `submatrix(sub_gids)`: `self._m[np.ix_(idx, idx)]` with
`idx = self._lookup[sub_gids]` — rows and columns remapped to the positions of
the requested ids, in the requested order. -/
def submatrix (cm : ConnectivityMatrix) (S : List ℤ) : List (List ℚ) :=
  S.map (fun gi => S.map (fun gj => cm.adj (cmIdx cm gi) (cmIdx cm gj)))

/-- `submatrix(sub_gids, sub_gids_post)`: asymmetric variant, rows from the
presynaptic ids and columns from the postsynaptic ids. -/
def submatrixRect (cm : ConnectivityMatrix) (pre post : List ℤ) : List (List ℚ) :=
  pre.map (fun gi => post.map (fun gj => cm.adj (cmIdx cm gi) (cmIdx cm gj)))

/-- `matrix.sum(axis=0)`: per-column sums of a row-list matrix. -/
def colSums (m : List (List ℚ)) : List ℚ :=
  (List.range (m.headD []).length).map (fun j => (m.map (fun r => r.getD j 0)).sum)

/-- `matrix.sum(axis=1)`: per-row sums of a row-list matrix. -/
def rowSums (m : List (List ℚ)) : List ℚ := m.map List.sum

/-- `AssemblyTopology.degree(pre_gids, post_gids, kind)`: picks the whole
matrix or a (possibly asymmetric) submatrix, then returns column sums for
`kind="in"`, row sums for `kind="out"`, and — because the fallthrough branch
only constructs a `ValueError` without raising it — Python's implicit `None`
(modelled `none`) for any other `kind`. -/
def degree (cm : ConnectivityMatrix) (preGids postGids : Option (List ℤ))
    (kind : String) : Option (List ℚ) :=
  let mtx := match preGids with
    | none => fullMatrix cm
    | some pre => match postGids with
      | none => submatrix cm pre
      | some post => submatrixRect cm pre post
  if kind = "in" then some (colSums mtx)
  else if kind = "out" then some (rowSums mtx)
  else none

/-- `matrix.getnnz()`: number of nonzero entries (canonical sparse form). -/
def nnzCount (m : List (List ℚ)) : ℕ :=
  (m.map (fun r => r.countP (fun q => decide (q ≠ 0)))).sum

/-- `AssemblyTopology.density(sub_gids)`:
`matrix.getnnz() / np.prod(matrix.shape)`.  For an empty shape the product is
0 and the 0/0 float division yields NaN (numpy emits a warning, not an
error). -/
def density (cm : ConnectivityMatrix) (subGids : Option (List ℤ)) : FVal :=
  let mtx := match subGids with
    | none => fullMatrix cm
    | some s => submatrix cm s
  let total : ℕ := mtx.length * (mtx.headD []).length
  if total = 0 then FVal.nan
  else FVal.num ((nnzCount mtx : ℚ) / (total : ℚ))

/-- Number of directed edges of the whole stored graph. -/
def edgeCount (cm : ConnectivityMatrix) : ℕ := nnzCount (fullMatrix cm)

/-!  Adaptive binning (`determine_bins` in `assemblyfire/utils.py`) and the
right-closed digitization applied to its edges in
`assembly_prob_from_indegree_and_syn_nnd`
(`analysis_src/assembly_topology.py`). -/

/-- The scan loop of `determine_bins`, operating on the reversed
(value, count) histogram, i.e. from the highest value downward:
`cumsum += count; if cumsum > min_samples: bin_edges.append(value); cumsum = 0`.
Returns the appended edges in scan (descending) order. -/
def scanEdges (minS : ℕ) : List (ℚ × ℕ) → ℕ → List ℚ
  | [], _ => []
  | (v, c) :: rest, cum =>
      if minS < cum + c then v :: scanEdges minS rest 0
      else scanEdges minS rest (cum + c)

/-- The bin-center loop of `determine_bins`: for each adjacent pair of edges,
the upper edge when their difference is exactly 1, otherwise the mean. -/
def binCenters : List ℚ → List ℚ
  | e1 :: e2 :: rest =>
      (if e2 - e1 = 1 then e2 else (e1 + e2) / 2) :: binCenters (e2 :: rest)
  | _ => []

/-- `determine_bins(unique_ns, counts, min_samples)`: seeds the edge list with
`unique_ns[-1]`, runs the downward scan, reverses edges to ascending order and
derives centers.  `none` models the IndexError raised on an empty value
array. -/
def determine_bins (uniqueNs : List ℚ) (counts : List ℕ) (minS : ℕ) :
    Option (List ℚ × List ℚ) :=
  match uniqueNs.getLast? with
  | none => none
  | some top =>
      let edges := (top :: scanEdges minS ((uniqueNs.zip counts).reverse) 0).reverse
      (edges, binCenters edges)

/-- `np.digitize(x, bins, right=True)` for ascending `bins`: the index `i`
with `bins[i-1] < x ≤ bins[i]`, i.e. the number of bin edges strictly below
`x` (0 when `x ≤ bins[0]`, `len(bins)` when `x > bins[-1]`). -/
def digitizeRight (x : ℚ) (bins : List ℚ) : ℕ :=
  bins.countP (fun b => decide (b < x))

/-!  Bookkeeping for the scan-accumulation property of `determine_bins`:
which counts the downward scan accumulated into each closed bin. -/

/-- Total count mass of a histogram. -/
def totalCount (pairs : List (ℚ × ℕ)) : ℕ := (pairs.map Prod.snd).sum

/-- Count mass at values `≥ lo`. -/
def countsGE (pairs : List (ℚ × ℕ)) (lo : ℚ) : ℕ :=
  (pairs.map (fun p => if lo ≤ p.1 then p.2 else 0)).sum

/-- Count mass at values in `[lo, hi)`. -/
def countsIn (pairs : List (ℚ × ℕ)) (lo hi : ℚ) : ℕ :=
  (pairs.map (fun p => if lo ≤ p.1 ∧ p.1 < hi then p.2 else 0)).sum

/-- Count mass at values `< hi`. -/
def countsLT (pairs : List (ℚ × ℕ)) (hi : ℚ) : ℕ :=
  (pairs.map (fun p => if p.1 < hi then p.2 else 0)).sum

/-- For closed-bin lower edges `es` (descending, below an already-closed bin
whose lower edge was `prev`): each bin `[e, prev)` accumulated strictly more
than `minS` counts, and the residual mass below the last edge is at most
`minS`. -/
def goodGroupsAux (minS : ℕ) (pairs : List (ℚ × ℕ)) : ℚ → List ℚ → Bool
  | prev, [] => decide (countsLT pairs prev ≤ minS)
  | prev, f :: rest =>
      decide (minS < countsIn pairs f prev) && goodGroupsAux minS pairs f rest

/-- Scan-accumulation property for a whole scan result `es` (descending lower
edges of the closed bins) started with running sum `cum`: the topmost bin
(everything at or above its lower edge, plus the carried `cum`) exceeded
`minS`, every later bin exceeded `minS`, and the residual below the lowest
closed edge is at most `minS`; if no bin closed, the whole mass is at most
`minS`. -/
def goodGroupsFrom (minS : ℕ) (pairs : List (ℚ × ℕ)) (cum : ℕ) : List ℚ → Bool
  | [] => decide (cum + totalCount pairs ≤ minS)
  | f :: rest =>
      decide (minS < cum + countsGE pairs f) && goodGroupsAux minS pairs f rest

/-!  Concrete instances shared by witnesses and counterexamples. -/

/-- A small concrete adjacency: a single edge from position 0 to position 1. -/
def adjModel : ℕ → ℕ → ℚ := fun i j => if i = 0 ∧ j = 1 then 1 else 0

/-- A concrete 2-node connectivity matrix with ids 10 and 20. -/
def cmModel : ConnectivityMatrix := { n := 2, adj := adjModel, gids := [10, 20] }

/-!  Claim C7: constructor validation. -/

/-- C7 (amended): `ConnectivityMatrix.__init__` performs no shape validation
at all — for every adjacency and node-id vector, construction succeeds and
merely stores its arguments; a dimension mismatch is never detected at
construction time. -/
theorem construct_no_shape_validation (n : ℕ) (adj : ℕ → ℕ → ℚ) (gids : List ℤ) :
    construct n adj gids = Except.ok { n := n, adj := adj, gids := gids } := rfl

/-- C7 counterexample: a 2×2 adjacency paired with a single node id — a shape
mismatch — constructs successfully instead of failing with `ShapeMismatch`,
refuting the claim that construction cannot succeed silently on mismatched
sizes. -/
theorem construct_mismatched_succeeds :
    construct 2 adjModel [5] = Except.ok { n := 2, adj := adjModel, gids := [5] } ∧
      (2 : ℕ) ≠ ([5] : List ℤ).length :=
  ⟨rfl, by decide⟩

/-!  Claim C10: invalid `kind` in `degree`. -/

/-- C10: for any `kind` other than `"in"` and `"out"`, `degree` returns
Python's implicit `None` (`none`): the `ValueError` in the fallthrough branch
is constructed but never raised, so the invalid kind is silently absorbed. -/
theorem degree_invalid_kind_returns_none (cm : ConnectivityMatrix)
    (preGids postGids : Option (List ℤ)) (kind : String)
    (hin : kind ≠ "in") (hout : kind ≠ "out") :
    degree cm preGids postGids kind = none := by
  simp only [degree, if_neg hin, if_neg hout]

/-- C10 witness: the invalid kind `"both"` on a concrete matrix yields `none`
without any error. -/
theorem degree_invalid_kind_returns_none_witness :
    ("both" ≠ "in" ∧ "both" ≠ "out") ∧ degree cmModel none none "both" = none :=
  ⟨⟨by decide, by decide⟩,
   degree_invalid_kind_returns_none cmModel none none "both" (by decide) (by decide)⟩

/-!  Claims C3 and C4: degenerate prior entropy. -/

/-- With IEEE values `log2 0 = -inf` and `log2 1 = 0`, the scalar entropy at
`p = 0` evaluates to `-(-inf)·0 - 0·1 = NaN + 0 = NaN`. -/
lemma entropyF_zero_of (log2 : ℚ → FVal)
    (h0 : log2 0 = FVal.ninf) (h1 : log2 1 = FVal.num 0) :
    entropyF log2 0 = FVal.nan := by
  unfold entropyF
  rw [show (1 : ℚ) - 0 = 1 by norm_num, h0, h1]
  rfl

/-- Symmetrically, the scalar entropy at `p = 1` is NaN. -/
lemma entropyF_one_of (log2 : ℚ → FVal)
    (h0 : log2 0 = FVal.ninf) (h1 : log2 1 = FVal.num 0) :
    entropyF log2 1 = FVal.nan := by
  unfold entropyF
  rw [show (1 : ℚ) - 1 = 0 by norm_num, h0, h1]
  rfl

/-- C3 (amended): when the overall membership probability is exactly 0 or
exactly 1, the prior entropy evaluates to NaN and the unguarded computation
`sign * (1 - pe/me)` emits NaN — a numeric value, not an explicit
`DegenerateEntropy` error (no error path exists in the code). -/
theorem frac_entropy_degenerate_amended (log2 : ℚ → FVal)
    (h0 : log2 0 = FVal.ninf) (h1 : log2 1 = FVal.num 0)
    (counts : List ℕ) (probs vals : List ℚ)
    (hdeg : overallP counts probs = 0 ∨ overallP counts probs = 1) :
    fracEntropyExplained log2 counts probs vals = FVal.nan := by
  have hme : entropyF log2 (overallP counts probs) = FVal.nan := by
    rcases hdeg with h | h <;> rw [h]
    · exact entropyF_zero_of log2 h0 h1
    · exact entropyF_one_of log2 h0 h1
  simp only [fracEntropyExplained, miImplementation, hme, FVal.div_nan, FVal.sub_nan,
    FVal.mul_nan]

/-- C3 witness: at the degenerate input `counts = [5,5]`, `probs = [1,1]`
(overall probability exactly 1), the computation returns NaN. -/
theorem frac_entropy_degenerate_amended_witness :
    (log2Model 0 = FVal.ninf ∧ log2Model 1 = FVal.num 0 ∧ overallP [5, 5] [1, 1] = 1) ∧
      fracEntropyExplained log2Model [5, 5] [1, 1] [3, 4] = FVal.nan :=
  ⟨⟨by decide, by decide, by norm_num [overallP]⟩,
   frac_entropy_degenerate_amended log2Model (by decide) (by decide) [5, 5] [1, 1] [3, 4]
     (Or.inr (by norm_num [overallP]))⟩

/-- C3 counterexample: at a population whose overall membership probability is
exactly 0 (`counts = [10,10]`, `probs = [0,0]`), the fraction-of-entropy
computation emits the numeric value NaN instead of signalling
`DegenerateEntropy`: there is no error to signal. -/
theorem frac_entropy_degenerate_emits_nan_example :
    overallP [10, 10] [0, 0] = 0 ∧
      fracEntropyExplained log2Model [10, 10] [0, 0] [1, 2] = FVal.nan := by
  have hover : overallP [10, 10] [0, 0] = 0 := by norm_num [overallP]
  have hme : entropyF log2Model (overallP [10, 10] [0, 0]) = FVal.nan := by
    rw [hover]
    exact entropyF_zero_of log2Model (by decide) (by decide)
  exact ⟨hover, by simp only [fracEntropyExplained, miImplementation, hme, FVal.div_nan,
    FVal.sub_nan, FVal.mul_nan]⟩

/-- C4 (amended): for any `log2` agreeing with IEEE at 0, 1 and 1/2, the
scalar entropy used for the prior satisfies `H(1/2) = 1` bit, but
`H(0) = H(1) = NaN` — the `0·log2 0 ≡ 0` convention is applied only to the
vectorized posterior entropy (`entropy_vec` via `nansum`), which does return 0
at probabilities 0 and 1.  Accordingly the prior returned by
`_mi_implementation` is 1 at overall probability 1/2 and NaN at 0 and 1. -/
theorem entropy_values_amended (log2 : ℚ → FVal)
    (h0 : log2 0 = FVal.ninf) (h1 : log2 1 = FVal.num 0)
    (hh : log2 (1 / 2) = FVal.num (-1)) :
    entropyF log2 (1 / 2) = FVal.num 1 ∧
    entropyF log2 0 = FVal.nan ∧
    entropyF log2 1 = FVal.nan ∧
    entropyVecF log2 0 = FVal.num 0 ∧
    entropyVecF log2 1 = FVal.num 0 ∧
    (miImplementation log2 [2] [1 / 2]).1 = FVal.num 1 ∧
    (miImplementation log2 [1] [0]).1 = FVal.nan ∧
    (miImplementation log2 [1] [1]).1 = FVal.nan := by
  have hhalf : entropyF log2 (1 / 2) = FVal.num 1 := by
    unfold entropyF
    rw [show (1 : ℚ) - 1 / 2 = 1 / 2 by norm_num, hh]
    have : FVal.sub ((FVal.neg (FVal.num (-1))).mul (FVal.num (1 / 2)))
        ((FVal.num (-1)).mul (FVal.num (1 / 2))) = FVal.num 1 := by
      norm_num [FVal.sub, FVal.add, FVal.mul, FVal.neg]
    exact this
  refine ⟨hhalf, entropyF_zero_of log2 h0 h1, entropyF_one_of log2 h0 h1, ?_, ?_, ?_, ?_, ?_⟩
  · unfold entropyVecF
    rw [show (1 : ℚ) - 0 = 1 by norm_num, h0, h1]
    norm_num [nanToZero, FVal.add, FVal.mul, FVal.neg]
  · unfold entropyVecF
    rw [show (1 : ℚ) - 1 = 0 by norm_num, h0, h1]
    norm_num [nanToZero, FVal.add, FVal.mul, FVal.neg]
  · have : overallP [2] [1 / 2] = 1 / 2 := by norm_num [overallP]
    simp only [miImplementation, this, hhalf]
  · have : overallP [1] [0] = 0 := by norm_num [overallP]
    simp only [miImplementation, this, entropyF_zero_of log2 h0 h1]
  · have : overallP [1] [1] = 1 := by norm_num [overallP]
    simp only [miImplementation, this, entropyF_one_of log2 h0 h1]

/-- C4 witness: the amended entropy values hold at the concrete IEEE-faithful
`log2Model`. -/
theorem entropy_values_amended_witness :
    (log2Model 0 = FVal.ninf ∧ log2Model 1 = FVal.num 0 ∧
        log2Model (1 / 2) = FVal.num (-1)) ∧
      (entropyF log2Model (1 / 2) = FVal.num 1 ∧
       entropyF log2Model 0 = FVal.nan ∧
       entropyF log2Model 1 = FVal.nan ∧
       entropyVecF log2Model 0 = FVal.num 0 ∧
       entropyVecF log2Model 1 = FVal.num 0 ∧
       (miImplementation log2Model [2] [1 / 2]).1 = FVal.num 1 ∧
       (miImplementation log2Model [1] [0]).1 = FVal.nan ∧
       (miImplementation log2Model [1] [1]).1 = FVal.nan) :=
  ⟨⟨by decide, by decide, by norm_num [log2Model]⟩,
   entropy_values_amended log2Model (by decide) (by decide) (by norm_num [log2Model])⟩

/-- C4 counterexample: the scalar entropy used for the prior evaluates to NaN
at `p = 0` (not 0 as the claim states), and so does the prior entropy returned
by `_mi_implementation` at overall membership probability 0. -/
theorem entropy_zero_is_nan :
    entropyF log2Model 0 = FVal.nan ∧
      (miImplementation log2Model [1] [0]).1 = FVal.nan := by
  have h := entropyF_zero_of log2Model (by decide) (by decide)
  have hover : overallP [1] [0] = 0 := by norm_num [overallP]
  exact ⟨h, by simp only [miImplementation, hover, h]⟩

/-!  Claims C5 and C8: degree and density against submatrix. -/

/-- Column sums of a rectangular matrix built by mapping a row generator over
`T` and a column generator over `S`, expressed aligned to `S`. -/
lemma colSums_aux {α : Type} (T : List α) (g : α → α → ℚ) :
    ∀ S : List α,
      (List.range S.length).map
          (fun j => ((T.map (fun a => S.map (g a))).map (fun r => r.getD j 0)).sum)
        = S.map (fun b => (T.map (fun a => g a b)).sum) := by
  intro S
  induction S with
  | nil => rfl
  | cons b t ih =>
    rw [List.length_cons, List.range_succ_eq_map]
    simp only [List.map_cons, List.map_map]
    refine congrArg₂ _ ?_ ?_
    · refine congrArg _ (List.map_congr_left ?_)
      intro a _
      simp [Function.comp]
    · rw [← ih]
      refine List.map_congr_left ?_
      intro j _
      simp only [Function.comp_apply, List.map_map]
      refine congrArg _ (List.map_congr_left ?_)
      intro a _
      simp [Function.comp]

/-- Column sums of the square matrix `submatrix`-shape, aligned to `S`. -/
lemma colSums_map_map {α : Type} (S : List α) (g : α → α → ℚ) :
    colSums (S.map (fun a => S.map (g a)))
      = S.map (fun b => (S.map (fun a => g a b)).sum) := by
  cases S with
  | nil => rfl
  | cons s t =>
    have hlen : ((((s :: t).map (fun a => (s :: t).map (g a))).headD []).length)
        = (s :: t).length := by simp
    unfold colSums
    rw [hlen]
    exact colSums_aux (s :: t) g (s :: t)

/-- C5: `degree(S, kind)` is exactly the per-column (`"in"`) and per-row
(`"out"`) sums of `submatrix(S)`, each aligned to the ordering of `S`; for
`pre_gids=None` both reduce to the column/row sums of the whole adjacency
matrix. -/
theorem degree_eq_submatrix_sums (cm : ConnectivityMatrix) (S : List ℤ)
    (hS : ∀ g ∈ S, g ∈ cm.gids) :
    degree cm (some S) none "in" = some (colSums (submatrix cm S)) ∧
    degree cm (some S) none "out" = some (rowSums (submatrix cm S)) ∧
    colSums (submatrix cm S)
      = S.map (fun gj => (S.map (fun gi => cm.adj (cmIdx cm gi) (cmIdx cm gj))).sum) ∧
    rowSums (submatrix cm S)
      = S.map (fun gi => (S.map (fun gj => cm.adj (cmIdx cm gi) (cmIdx cm gj))).sum) ∧
    degree cm none none "in"
      = some ((List.range cm.n).map
          (fun j => ((List.range cm.n).map (fun i => cm.adj i j)).sum)) ∧
    degree cm none none "out"
      = some ((List.range cm.n).map
          (fun i => ((List.range cm.n).map (fun j => cm.adj i j)).sum)) := by
  refine ⟨rfl, rfl, ?_, ?_, ?_, ?_⟩
  · exact colSums_map_map S (fun gi gj => cm.adj (cmIdx cm gi) (cmIdx cm gj))
  · simp [rowSums, submatrix, List.map_map, Function.comp]
  · exact congrArg some (colSums_map_map (List.range cm.n) (fun i j => cm.adj i j))
  · simp [degree, rowSums, fullMatrix, List.map_map, Function.comp]

/-- C5 witness: on a concrete 2-node matrix and the reordered subset
`[20, 10]` of known ids, the in-degree column sums are aligned to the subset
ordering. -/
theorem degree_eq_submatrix_sums_witness :
    degree cmModel (some [20, 10]) none "in" = some (colSums (submatrix cmModel [20, 10])) ∧
      colSums (submatrix cmModel [20, 10])
        = ([20, 10] : List ℤ).map
            (fun gj => (([20, 10] : List ℤ).map
              (fun gi => cmModel.adj (cmIdx cmModel gi) (cmIdx cmModel gj))).sum) :=
  ⟨(degree_eq_submatrix_sums cmModel [20, 10] (by decide)).1,
   (degree_eq_submatrix_sums cmModel [20, 10] (by decide)).2.2.1⟩

/-- Every row of a matrix of the `submatrix` shape has the column count. -/
lemma matrix_headD_len {m : List (List ℚ)} {k : ℕ}
    (h : ∀ r ∈ m, r.length = k) (hne : m ≠ []) : (m.headD []).length = k := by
  cases m with
  | nil => exact absurd rfl hne
  | cons r t => exact h r (List.mem_cons_self r t)

/-- The nonzero count of a matrix with uniform row length `k` is at most
`rows · k`. -/
lemma nnzCount_le {m : List (List ℚ)} {k : ℕ}
    (h : ∀ r ∈ m, r.length = k) : nnzCount m ≤ m.length * k := by
  induction m with
  | nil => simp [nnzCount]
  | cons r t ih =>
    have hr : r.length = k := h r (List.mem_cons_self r t)
    have ht := ih (fun s hs => h s (List.mem_cons_of_mem _ hs))
    have hc : r.countP (fun q => decide (q ≠ 0)) ≤ r.length := List.countP_le_length _
    simp only [nnzCount, List.map_cons, List.sum_cons, List.length_cons] at *
    calc r.countP (fun q => decide (q ≠ 0)) + (t.map (fun s => s.countP (fun q => decide (q ≠ 0)))).sum
        ≤ k + t.length * k := Nat.add_le_add (hr ▸ hc) ht
      _ = (t.length + 1) * k := by ring

/-- C8 (amended): for every non-empty subset of known ids, `density` returns
the exact nonzero fraction of the induced submatrix, a rational in `[0, 1]`;
on the whole (non-empty) graph it equals the direct edge-count over `N²`
computation.  (The empty subset instead produces NaN from 0/0 — see the
counterexample.) -/
theorem density_amended_bounds (cm : ConnectivityMatrix) (S : List ℤ)
    (hS : S ≠ []) (hn : 0 < cm.n) :
    (density cm (some S)
        = FVal.num ((nnzCount (submatrix cm S) : ℚ) / ((S.length * S.length : ℕ) : ℚ)) ∧
      0 ≤ ((nnzCount (submatrix cm S) : ℚ) / ((S.length * S.length : ℕ) : ℚ)) ∧
      ((nnzCount (submatrix cm S) : ℚ) / ((S.length * S.length : ℕ) : ℚ)) ≤ 1) ∧
    (density cm none
        = FVal.num ((edgeCount cm : ℚ) / ((cm.n * cm.n : ℕ) : ℚ)) ∧
      0 ≤ ((edgeCount cm : ℚ) / ((cm.n * cm.n : ℕ) : ℚ)) ∧
      ((edgeCount cm : ℚ) / ((cm.n * cm.n : ℕ) : ℚ)) ≤ 1) := by
  have main : ∀ (m : List (List ℚ)) (k : ℕ), 0 < k → (∀ r ∈ m, r.length = k) →
      m.length = k →
      0 ≤ ((nnzCount m : ℚ) / ((k * k : ℕ) : ℚ)) ∧
        ((nnzCount m : ℚ) / ((k * k : ℕ) : ℚ)) ≤ 1 := by
    intro m k hk hrows hml
    have hnnz : nnzCount m ≤ k * k := by
      have := nnzCount_le hrows
      rwa [hml] at this
    constructor
    · positivity
    · rw [div_le_one (by positivity)]
      exact_mod_cast hnnz
  have hSlen : 0 < S.length := List.length_pos.2 hS
  have hrowsS : ∀ r ∈ submatrix cm S, r.length = S.length := by
    intro r hr
    simp only [submatrix, List.mem_map] at hr
    obtain ⟨a, _, rfl⟩ := hr
    simp
  have hlenS : (submatrix cm S).length = S.length := by simp [submatrix]
  have hneS : submatrix cm S ≠ [] :=
    List.length_pos.1 (by rw [hlenS]; exact hSlen)
  have hheadS := matrix_headD_len hrowsS hneS
  have hrowsF : ∀ r ∈ fullMatrix cm, r.length = cm.n := by
    intro r hr
    simp only [fullMatrix, List.mem_map] at hr
    obtain ⟨a, _, rfl⟩ := hr
    simp
  have hlenF : (fullMatrix cm).length = cm.n := by simp [fullMatrix]
  have hneF : fullMatrix cm ≠ [] :=
    List.length_pos.1 (by rw [hlenF]; exact hn)
  have hheadF := matrix_headD_len hrowsF hneF
  constructor
  · have heq : density cm (some S)
        = FVal.num ((nnzCount (submatrix cm S) : ℚ) / ((S.length * S.length : ℕ) : ℚ)) := by
      simp only [density]
      rw [hlenS, hheadS, if_neg (by positivity)]
    exact ⟨heq, main (submatrix cm S) S.length hSlen hrowsS hlenS⟩
  · have heq : density cm none
        = FVal.num ((edgeCount cm : ℚ) / ((cm.n * cm.n : ℕ) : ℚ)) := by
      simp only [density]
      rw [hlenF, hheadF, if_neg (by positivity)]
      rfl
    exact ⟨heq, main (fullMatrix cm) cm.n hn hrowsF hlenF⟩

/-- C8 witness: on the concrete 2-node matrix and the non-empty subset
`[20, 10]`, density is the exact nonzero fraction and lies in `[0, 1]`. -/
theorem density_amended_bounds_witness :
    ([20, 10] : List ℤ) ≠ [] ∧ 0 < cmModel.n ∧
      (density cmModel (some [20, 10])
        = FVal.num ((nnzCount (submatrix cmModel [20, 10]) : ℚ)
            / ((([20, 10] : List ℤ).length * ([20, 10] : List ℤ).length : ℕ) : ℚ)) ∧
       0 ≤ ((nnzCount (submatrix cmModel [20, 10]) : ℚ)
            / ((([20, 10] : List ℤ).length * ([20, 10] : List ℤ).length : ℕ) : ℚ)) ∧
       ((nnzCount (submatrix cmModel [20, 10]) : ℚ)
            / ((([20, 10] : List ℤ).length * ([20, 10] : List ℤ).length : ℕ) : ℚ)) ≤ 1) :=
  ⟨by decide, by decide, (density_amended_bounds cmModel [20, 10] (by decide) (by decide)).1⟩

/-- C8 counterexample: the empty subset yields shape `(0, 0)`, so the
nonzero-count over `np.prod(shape)` division is `0/0`, NaN — not a value in
`[0, 1]`, refuting the claim for the empty subset it explicitly includes. -/
theorem density_empty_subset_nan : density cmModel (some []) = FVal.nan := rfl

/-!  Claim C6: sign of the least-squares slope under monotone probabilities. -/

/-- Pointwise product of two `ofFn` lists. -/
lemma zipWith_mul_ofFn {n : ℕ} (f g : Fin n → ℚ) :
    List.zipWith (· * ·) (List.ofFn f) (List.ofFn g) = List.ofFn (fun i => f i * g i) := by
  induction n with
  | zero => rfl
  | succ m ih => simp [List.ofFn_succ, ih]

/-- The symmetric double sum `Σᵢⱼ (xᵢ−xⱼ)(yᵢ−yⱼ)` is twice the least-squares
slope numerator `n·Σxy − Σx·Σy`. -/
lemma double_sum_identity {n : ℕ} (x y : Fin n → ℚ) :
    (∑ i : Fin n, ∑ j : Fin n, (x i - x j) * (y i - y j))
      = 2 * ((n : ℚ) * (∑ i, x i * y i) - (∑ i, x i) * (∑ i, y i)) := by
  have expand : ∀ i j : Fin n, (x i - x j) * (y i - y j)
      = x i * y i - x i * y j - x j * y i + x j * y j := by intros; ring
  have inner : ∀ i : Fin n, (∑ j : Fin n, (x i - x j) * (y i - y j))
      = (n : ℚ) * (x i * y i) - x i * (∑ j, y j) - (∑ j, x j) * y i
          + ∑ j, x j * y j := by
    intro i
    calc (∑ j : Fin n, (x i - x j) * (y i - y j))
        = ∑ j : Fin n, (x i * y i - x i * y j - x j * y i + x j * y j) :=
          Finset.sum_congr rfl fun j _ => expand i j
      _ = (∑ _j : Fin n, x i * y i) - (∑ j : Fin n, x i * y j)
            - (∑ j : Fin n, x j * y i) + ∑ j : Fin n, x j * y j := by
          rw [Finset.sum_add_distrib, Finset.sum_sub_distrib, Finset.sum_sub_distrib]
      _ = (n : ℚ) * (x i * y i) - x i * (∑ j, y j) - (∑ j, x j) * y i
            + ∑ j, x j * y j := by
          rw [Finset.sum_const, Finset.card_univ, Fintype.card_fin, nsmul_eq_mul,
            ← Finset.mul_sum, ← Finset.sum_mul]
  calc (∑ i : Fin n, ∑ j : Fin n, (x i - x j) * (y i - y j))
      = ∑ i : Fin n, ((n : ℚ) * (x i * y i) - x i * (∑ j, y j) - (∑ j, x j) * y i
          + ∑ j, x j * y j) := Finset.sum_congr rfl fun i _ => inner i
    _ = (∑ i : Fin n, (n : ℚ) * (x i * y i)) - (∑ i : Fin n, x i * (∑ j, y j))
          - (∑ i : Fin n, (∑ j, x j) * y i) + ∑ _i : Fin n, (∑ j, x j * y j) := by
        rw [Finset.sum_add_distrib, Finset.sum_sub_distrib, Finset.sum_sub_distrib]
    _ = (n : ℚ) * (∑ i, x i * y i) - (∑ i, x i) * (∑ j, y j)
          - (∑ j, x j) * (∑ i, y i) + (n : ℚ) * (∑ j, x j * y j) := by
        rw [← Finset.mul_sum, ← Finset.sum_mul, ← Finset.mul_sum, Finset.sum_const,
          Finset.card_univ, Fintype.card_fin, nsmul_eq_mul]
    _ = 2 * ((n : ℚ) * (∑ i, x i * y i) - (∑ i, x i) * (∑ i, y i)) := by ring

/-- Positivity of the slope numerator for an injective abscissa with strictly
co-monotone ordinates (at least two points). -/
lemma covSum_pos {n : ℕ} (hn : 2 ≤ n) (x y : Fin n → ℚ)
    (hinj : Function.Injective x) (hmono : ∀ i j, x i < x j → y i < y j) :
    0 < (n : ℚ) * (∑ i, x i * y i) - (∑ i, x i) * (∑ i, y i) := by
  have hterm : ∀ i j : Fin n, 0 ≤ (x i - x j) * (y i - y j) := by
    intro i j
    rcases lt_trichotomy (x i) (x j) with h | h | h
    · have hy := hmono i j h
      exact le_of_lt (mul_pos_of_neg_of_neg (by linarith) (by linarith))
    · have : i = j := hinj h
      subst this
      simp
    · have hy := hmono j i h
      exact le_of_lt (mul_pos (by linarith) (by linarith))
  have h0 : (0 : ℕ) < n := by omega
  have h1 : (1 : ℕ) < n := by omega
  set i0 : Fin n := ⟨0, h0⟩
  set i1 : Fin n := ⟨1, h1⟩
  have hne : i0 ≠ i1 := by simp [i0, i1, Fin.ext_iff]
  have hxne : x i0 ≠ x i1 := fun h => hne (hinj h)
  have hpos : 0 < (x i0 - x i1) * (y i0 - y i1) := by
    rcases lt_or_gt_of_ne hxne with h | h
    · have hy := hmono _ _ h
      exact mul_pos_of_neg_of_neg (by linarith) (by linarith)
    · have hy := hmono _ _ h
      exact mul_pos (by linarith) (by linarith)
  have hS : 0 < ∑ i : Fin n, ∑ j : Fin n, (x i - x j) * (y i - y j) := by
    refine Finset.sum_pos' (fun i _ => Finset.sum_nonneg fun j _ => hterm i j)
      ⟨i0, Finset.mem_univ _, ?_⟩
    exact Finset.sum_pos' (fun j _ => hterm i0 j) ⟨i1, Finset.mem_univ _, hpos⟩
  have hid := double_sum_identity x y
  linarith

/-- C6: for at least two distinct feature values with strictly monotone
membership probabilities, `_sign_of_correlation` returns +1 for increasing and
−1 for decreasing probability versus feature value. -/
theorem sign_of_correlation_monotone {n : ℕ} (hn : 2 ≤ n) (x y : Fin n → ℚ)
    (hinj : Function.Injective x) :
    ((∀ i j, x i < x j → y i < y j) →
        sign_of_correlation (List.ofFn x) (List.ofFn y) = 1) ∧
    ((∀ i j, x i < x j → y j < y i) →
        sign_of_correlation (List.ofFn x) (List.ofFn y) = -1) := by
  have hden : 0 < (n : ℚ) * (∑ i, x i * x i) - (∑ i, x i) * (∑ i, x i) :=
    covSum_pos hn x x hinj (fun i j h => h)
  have hslope : lsqSlope (List.ofFn x) (List.ofFn y)
      = ((n : ℚ) * (∑ i, x i * y i) - (∑ i, x i) * (∑ i, y i)) /
        ((n : ℚ) * (∑ i, x i * x i) - (∑ i, x i) * (∑ i, x i)) := by
    unfold lsqSlope
    rw [zipWith_mul_ofFn, zipWith_mul_ofFn]
    simp [List.sum_ofFn, List.length_ofFn]
  constructor
  · intro hmono
    have hnum := covSum_pos hn x y hinj hmono
    have hpos : 0 < lsqSlope (List.ofFn x) (List.ofFn y) := by
      rw [hslope]
      exact div_pos hnum hden
    unfold sign_of_correlation ratSign
    rw [if_pos hpos]
  · intro hanti
    have hnum : 0 < (n : ℚ) * (∑ i, x i * (-y i)) - (∑ i, x i) * (∑ i, (-y i)) :=
      covSum_pos hn x (fun i => -y i) hinj (fun i j h => by
        have hy := hanti i j h
        show -y i < -y j
        linarith)
    have hnum' : (n : ℚ) * (∑ i, x i * y i) - (∑ i, x i) * (∑ i, y i) < 0 := by
      have h1 : (∑ i : Fin n, x i * (-y i)) = -(∑ i : Fin n, x i * y i) := by
        simp [mul_neg]
      have h2 : (∑ i : Fin n, (-y i)) = -(∑ i : Fin n, y i) := by simp
      rw [h1, h2, mul_neg, mul_neg] at hnum
      linarith
    have hneg : lsqSlope (List.ofFn x) (List.ofFn y) < 0 := by
      rw [hslope]
      exact div_neg_of_neg_of_pos hnum' hden
    unfold sign_of_correlation ratSign
    rw [if_neg (lt_asymm hneg), if_pos hneg]

/-- C6 witness: two concrete 2-point profiles — strictly increasing
probabilities give sign +1, strictly decreasing give sign −1. -/
theorem sign_of_correlation_monotone_witness :
    sign_of_correlation (List.ofFn ![(1 : ℚ), 2]) (List.ofFn ![(0 : ℚ), 1]) = 1 ∧
      sign_of_correlation (List.ofFn ![(1 : ℚ), 2]) (List.ofFn ![(3 : ℚ), 0]) = -1 :=
  ⟨(sign_of_correlation_monotone (by norm_num) ![(1 : ℚ), 2] ![(0 : ℚ), 1]
      (by decide)).1 (by decide),
   (sign_of_correlation_monotone (by norm_num) ![(1 : ℚ), 2] ![(3 : ℚ), 0]
      (by decide)).2 (by decide)⟩

/-!  Claims C1, C2, C9: the adaptive-binning scan. -/

/-- The scan only ever appends values present in the histogram. -/
lemma scanEdges_sublist (minS : ℕ) :
    ∀ (pairs : List (ℚ × ℕ)) (cum : ℕ),
      (scanEdges minS pairs cum).Sublist (pairs.map Prod.fst) := by
  intro pairs
  induction pairs with
  | nil => intro cum; simp [scanEdges]
  | cons p rest ih =>
    intro cum
    obtain ⟨v, c⟩ := p
    simp only [scanEdges, List.map_cons]
    split
    · exact List.Sublist.cons₂ v (ih 0)
    · exact List.Sublist.cons v (ih (cum + c))

lemma totalCount_cons (v : ℚ) (c : ℕ) (rest : List (ℚ × ℕ)) :
    totalCount ((v, c) :: rest) = c + totalCount rest := by
  simp [totalCount]

lemma countsGE_cons (v : ℚ) (c : ℕ) (rest : List (ℚ × ℕ)) (lo : ℚ) :
    countsGE ((v, c) :: rest) lo = (if lo ≤ v then c else 0) + countsGE rest lo := by
  simp [countsGE]

lemma countsIn_cons (v : ℚ) (c : ℕ) (rest : List (ℚ × ℕ)) (lo hi : ℚ) :
    countsIn ((v, c) :: rest) lo hi
      = (if lo ≤ v ∧ v < hi then c else 0) + countsIn rest lo hi := by
  simp [countsIn]

lemma countsLT_cons (v : ℚ) (c : ℕ) (rest : List (ℚ × ℕ)) (hi : ℚ) :
    countsLT ((v, c) :: rest) hi = (if v < hi then c else 0) + countsLT rest hi := by
  simp [countsLT]

/-- No mass at or above `lo` when every value lies below it. -/
lemma countsGE_eq_zero {pairs : List (ℚ × ℕ)} {lo : ℚ}
    (h : ∀ p ∈ pairs, p.1 < lo) : countsGE pairs lo = 0 := by
  unfold countsGE
  rw [List.sum_eq_zero]
  intro q hq
  simp only [List.mem_map] at hq
  obtain ⟨p, hp, rfl⟩ := hq
  rw [if_neg (not_le.2 (h p hp))]

/-- All mass is below `hi` when every value lies below it. -/
lemma countsLT_eq_total {pairs : List (ℚ × ℕ)} {hi : ℚ}
    (h : ∀ p ∈ pairs, p.1 < hi) : countsLT pairs hi = totalCount pairs := by
  unfold countsLT totalCount
  refine congrArg _ (List.map_congr_left fun p hp => ?_)
  rw [if_pos (h p hp)]

/-- A half-open window `[lo, hi)` captures all the `≥ lo` mass when every
value lies below `hi`. -/
lemma countsIn_eq_countsGE {pairs : List (ℚ × ℕ)} {lo hi : ℚ}
    (h : ∀ p ∈ pairs, p.1 < hi) : countsIn pairs lo hi = countsGE pairs lo := by
  unfold countsIn countsGE
  refine congrArg _ (List.map_congr_left fun p hp => ?_)
  by_cases hlo : lo ≤ p.1
  · rw [if_pos ⟨hlo, h p hp⟩, if_pos hlo]
  · rw [if_neg (fun hc => hlo hc.1), if_neg hlo]

/-- Prepending a histogram entry whose value lies above all the considered
edges does not affect the per-bin accumulation below them. -/
lemma goodGroupsAux_cons_high (minS : ℕ) (v : ℚ) (c : ℕ) (rest : List (ℚ × ℕ)) :
    ∀ (prev : ℚ) (es : List ℚ), prev ≤ v → (∀ e ∈ es, e < v) →
      goodGroupsAux minS rest prev es = true →
      goodGroupsAux minS ((v, c) :: rest) prev es = true := by
  intro prev es
  induction es generalizing prev with
  | nil =>
    intro hpv _ h
    simp only [goodGroupsAux, decide_eq_true_eq] at h ⊢
    rw [countsLT_cons, if_neg (not_lt.2 hpv)]
    simpa using h
  | cons f es' ih =>
    intro hpv hes h
    simp only [goodGroupsAux, Bool.and_eq_true, decide_eq_true_eq] at h ⊢
    obtain ⟨h1, h2⟩ := h
    have hfv : f < v := hes f (List.mem_cons_self f es')
    refine ⟨?_, ih f (le_of_lt hfv) (fun e he => hes e (List.mem_cons_of_mem _ he)) h2⟩
    rw [countsIn_cons, if_neg (fun hc => (not_lt.2 hpv) hc.2)]
    simpa using h1

/-- Main invariant of the downward scan: started with carried sum
`cum ≤ minS` on a strictly descending histogram, every closed bin accumulated
strictly more than `minS` counts and the residual mass below the lowest closed
edge is at most `minS`. -/
lemma scanEdges_goodGroups (minS : ℕ) :
    ∀ (pairs : List (ℚ × ℕ)) (cum : ℕ), cum ≤ minS →
      (pairs.map Prod.fst).Sorted (· > ·) →
      goodGroupsFrom minS pairs cum (scanEdges minS pairs cum) = true := by
  intro pairs
  induction pairs with
  | nil =>
    intro cum hcum _
    simp only [scanEdges, goodGroupsFrom, decide_eq_true_eq, totalCount, List.map_nil,
      List.sum_nil]
    omega
  | cons p rest ih =>
    obtain ⟨v, c⟩ := p
    intro cum hcum hsort
    have hsort' : (v :: rest.map Prod.fst).Sorted (· > ·) := by simpa using hsort
    rw [List.sorted_cons] at hsort'
    have hrest_sorted : (rest.map Prod.fst).Sorted (· > ·) := hsort'.2
    have hvlt : ∀ p' ∈ rest, p'.1 < v := fun p' hp' =>
      hsort'.1 p'.1 (List.mem_map_of_mem Prod.fst hp')
    simp only [scanEdges]
    split
    case isTrue htrig =>
      simp only [goodGroupsFrom, Bool.and_eq_true, decide_eq_true_eq]
      constructor
      · rw [countsGE_cons, if_pos le_rfl, countsGE_eq_zero hvlt]
        omega
      · have hIH := ih 0 (Nat.zero_le _) hrest_sorted
        have hmem : ∀ e ∈ scanEdges minS rest 0, e < v := by
          intro e he
          have hm : e ∈ rest.map Prod.fst := (scanEdges_sublist minS rest 0).subset he
          simp only [List.mem_map] at hm
          obtain ⟨p', hp', rfl⟩ := hm
          exact hvlt p' hp'
        cases hscan : scanEdges minS rest 0 with
        | nil =>
          rw [hscan] at hIH
          simp only [goodGroupsFrom, decide_eq_true_eq] at hIH
          simp only [goodGroupsAux, decide_eq_true_eq]
          rw [countsLT_cons, if_neg (lt_irrefl v), countsLT_eq_total hvlt]
          omega
        | cons g r =>
          rw [hscan] at hIH hmem
          simp only [goodGroupsFrom, Bool.and_eq_true, decide_eq_true_eq] at hIH
          obtain ⟨hIH1, hIH2⟩ := hIH
          simp only [goodGroupsAux, Bool.and_eq_true, decide_eq_true_eq]
          have hgv : g < v := hmem g (List.mem_cons_self g r)
          constructor
          · rw [countsIn_cons, if_neg (fun hc => lt_irrefl v hc.2),
              countsIn_eq_countsGE hvlt]
            omega
          · exact goodGroupsAux_cons_high minS v c rest g _ (le_of_lt hgv)
              (fun e he => hmem e (List.mem_cons_of_mem _ he)) hIH2
    case isFalse htrig =>
      have hcum' : cum + c ≤ minS := by omega
      have hIH := ih (cum + c) hcum' hrest_sorted
      cases hscan : scanEdges minS rest (cum + c) with
      | nil =>
        rw [hscan] at hIH
        simp only [goodGroupsFrom, decide_eq_true_eq] at hIH ⊢
        rw [totalCount_cons]
        omega
      | cons g r =>
        rw [hscan] at hIH
        simp only [goodGroupsFrom, Bool.and_eq_true, decide_eq_true_eq] at hIH ⊢
        obtain ⟨hIH1, hIH2⟩ := hIH
        have hmem : ∀ e ∈ g :: r, e < v := by
          intro e he
          have he' : e ∈ scanEdges minS rest (cum + c) := by rw [hscan]; exact he
          have hm : e ∈ rest.map Prod.fst :=
            (scanEdges_sublist minS rest (cum + c)).subset he'
          simp only [List.mem_map] at hm
          obtain ⟨p', hp', rfl⟩ := hm
          exact hvlt p' hp'
        have hgv : g < v := hmem g (List.mem_cons_self g r)
        constructor
        · rw [countsGE_cons, if_pos (le_of_lt hgv)]
          omega
        · exact goodGroupsAux_cons_high minS v c rest g _ (le_of_lt hgv)
            (fun e he => hmem e (List.mem_cons_of_mem _ he)) hIH2

/-- The center list is one shorter than the edge list. -/
lemma binCenters_length (l : List ℚ) : (binCenters l).length = l.length - 1 := by
  induction l with
  | nil => rfl
  | cons e1 t ih =>
    cases t with
    | nil => rfl
    | cons e2 r =>
      simp only [binCenters, List.length_cons]
      rw [ih]
      simp

/-- Each center is the upper edge of its pair when the edge difference is
exactly one, otherwise the midpoint. -/
lemma binCenters_getD (l : List ℚ) : ∀ i : ℕ, i + 1 < l.length →
    (binCenters l).getD i 0
      = if l.getD (i + 1) 0 - l.getD i 0 = 1 then l.getD (i + 1) 0
        else (l.getD i 0 + l.getD (i + 1) 0) / 2 := by
  induction l with
  | nil =>
    intro i hi
    simp at hi
  | cons e1 t ih =>
    cases t with
    | nil =>
      intro i hi
      simp at hi
    | cons e2 r =>
      intro i hi
      cases i with
      | zero => simp [binCenters]
      | succ j =>
        have hj : j + 1 < (e2 :: r).length := by
          simpa using hi
        simp only [binCenters, List.getD_cons_succ]
        exact ih j hj

/-- Structure of a successful `determine_bins` call on a sorted unique-value
histogram: the ascending edges are the seed `unique_ns[-1]` plus the scan
result, the scan result is strictly descending with values from the input, and
the seed is the maximum input value. -/
lemma determine_bins_core {uniqueNs : List ℚ} {counts : List ℕ} {minS : ℕ}
    (hlen : uniqueNs.length = counts.length)
    (hsort : uniqueNs.Sorted (· < ·))
    {edges centers : List ℚ}
    (heq : determine_bins uniqueNs counts minS = some (edges, centers)) :
    ∃ top scan,
      uniqueNs.getLast? = some top ∧
      edges = (top :: scan).reverse ∧
      scan = scanEdges minS ((uniqueNs.zip counts).reverse) 0 ∧
      centers = binCenters edges ∧
      scan.Sorted (· > ·) ∧
      (∀ e ∈ scan, e ∈ uniqueNs) ∧
      (∀ e ∈ uniqueNs, e ≤ top) ∧
      (((uniqueNs.zip counts).reverse).map Prod.fst).Sorted (· > ·) := by
  have hvals : (((uniqueNs.zip counts).reverse).map Prod.fst) = uniqueNs.reverse := by
    rw [List.map_reverse, List.map_fst_zip _ _ (le_of_eq hlen)]
  have hdesc : (uniqueNs.reverse).Sorted (· > ·) := by
    rw [List.Sorted, List.pairwise_reverse]
    exact hsort
  have hpairs : (((uniqueNs.zip counts).reverse).map Prod.fst).Sorted (· > ·) := by
    rw [hvals]; exact hdesc
  unfold determine_bins at heq
  cases hu : uniqueNs.getLast? with
  | none =>
    rw [hu] at heq
    simp at heq
  | some top =>
    rw [hu] at heq
    simp only [Option.some.injEq, Prod.mk.injEq] at heq
    obtain ⟨hE, hC⟩ := heq
    have hsub : (scanEdges minS ((uniqueNs.zip counts).reverse) 0).Sublist
        uniqueNs.reverse := by
      rw [← hvals]
      exact scanEdges_sublist minS _ 0
    have hscan_sorted : (scanEdges minS ((uniqueNs.zip counts).reverse) 0).Sorted
        (· > ·) := List.Pairwise.sublist hsub hdesc
    have hscan_mem : ∀ e ∈ scanEdges minS ((uniqueNs.zip counts).reverse) 0,
        e ∈ uniqueNs := fun e he => (List.mem_reverse).1 (hsub.subset he)
    have htople : ∀ e ∈ uniqueNs, e ≤ top := by
      have hhead : uniqueNs.reverse.head? = some top := by
        rw [List.head?_reverse, hu]
      cases hrev : uniqueNs.reverse with
      | nil =>
        rw [hrev] at hhead
        simp at hhead
      | cons t tl =>
        rw [hrev] at hhead
        simp only [List.head?_cons, Option.some.injEq] at hhead
        subst hhead
        intro e he
        have hmem : e ∈ t :: tl := by
          rw [← hrev, List.mem_reverse]
          exact he
        rcases List.mem_cons.1 hmem with rfl | hmem'
        · exact le_rfl
        · have hd := hdesc
          rw [hrev, List.sorted_cons] at hd
          exact le_of_lt (hd.1 e hmem')
    refine ⟨top, scanEdges minS ((uniqueNs.zip counts).reverse) 0, rfl, hE.symm, rfl,
      ?_, hscan_sorted, hscan_mem, htople, hpairs⟩
    rw [← hC, hE]

/-- C1 (amended): on a non-empty strictly sorted unique-value histogram with
positive counts, the edges returned by `determine_bins` are non-decreasing —
strictly increasing below the top edge, though the top edge itself can repeat
(when the highest value's count alone exceeds `min_samples`) — the highest
edge is the highest input value, and the downward scan accumulated strictly
more than `min_samples` counts into every closed bin, the residual mass below
the lowest edge being at most `min_samples`. -/
theorem determine_bins_amended_spec (uniqueNs : List ℚ) (counts : List ℕ) (minS : ℕ)
    (hlen : uniqueNs.length = counts.length)
    (hsort : uniqueNs.Sorted (· < ·))
    (hpos : ∀ c ∈ counts, 0 < c)
    (edges centers : List ℚ)
    (heq : determine_bins uniqueNs counts minS = some (edges, centers)) :
    edges.Sorted (· ≤ ·) ∧
    edges.dropLast.Sorted (· < ·) ∧
    edges.getLast? = uniqueNs.getLast? ∧
    goodGroupsFrom minS ((uniqueNs.zip counts).reverse) 0 edges.reverse.tail = true := by
  obtain ⟨top, scan, hu, hE, hscan, hC, hsorted, hmem, htop, hpairs⟩ :=
    determine_bins_core hlen hsort heq
  subst hE
  refine ⟨?_, ?_, ?_, ?_⟩
  · rw [List.Sorted, List.pairwise_reverse, List.pairwise_cons]
    exact ⟨fun e he => htop e (hmem e he), hsorted.imp le_of_lt⟩
  · rw [List.reverse_cons, List.dropLast_concat, List.Sorted, List.pairwise_reverse]
    exact hsorted
  · rw [List.getLast?_reverse, hu]
    rfl
  · rw [List.reverse_reverse, List.tail_cons, hscan]
    exact scanEdges_goodGroups minS _ 0 (Nat.zero_le _) hpairs

/-- C1 counterexample: the sorted histogram `values [1, 2]`, `counts [1, 5]`,
`min_samples 3` (positive counts) makes the count of the single highest value
trigger the very first close, appending `unique_ns[-1]` a second time: the
returned edges `[2, 2]` are not strictly increasing. -/
theorem determine_bins_edges_not_strictly_increasing :
    ([1, 2] : List ℚ).Sorted (· < ·) ∧
      determine_bins [1, 2] [1, 5] 3 = some ([2, 2], [2]) ∧
      ¬ (([2, 2] : List ℚ).Sorted (· < ·)) := by
  refine ⟨by decide, ?_, by decide⟩
  norm_num [determine_bins, scanEdges, binCenters]

/-- C1 witness: the amended properties at the concrete call
`determine_bins [1, 2, 3] [4, 4, 2] 3 = ([1, 2, 3], [2, 3])`. -/
theorem determine_bins_amended_spec_witness :
    ([1, 2, 3] : List ℚ).Sorted (· ≤ ·) ∧
    ([1, 2, 3] : List ℚ).dropLast.Sorted (· < ·) ∧
    ([1, 2, 3] : List ℚ).getLast? = ([1, 2, 3] : List ℚ).getLast? ∧
    goodGroupsFrom 3 ((([1, 2, 3] : List ℚ).zip [4, 4, 2]).reverse) 0
      ([1, 2, 3] : List ℚ).reverse.tail = true :=
  determine_bins_amended_spec [1, 2, 3] [4, 4, 2] 3 (by decide) (by decide) (by decide)
    [1, 2, 3] [2, 3] (by norm_num [determine_bins, scanEdges, binCenters])

/-- Counting a failed and a satisfied predicate partitions a list. -/
lemma countP_add_not (p : ℚ → Bool) (l : List ℚ) :
    l.countP p + l.countP (fun a => !(p a)) = l.length := by
  induction l with
  | nil => simp
  | cons a t ih =>
    rw [List.countP_cons, List.countP_cons, List.length_cons]
    cases h : p a <;> simp [h] <;> omega

/-- C2 (amended): with right-closed digitization against the edges of
`determine_bins`, an input value strictly above the lowest edge receives a bin
index between 1 and the number of bins (so it lands in exactly one enumerated
bin), but every input value at or below the lowest edge — including the lowest
edge itself, an actual input value — receives index 0, outside all enumerated
bins, and is silently dropped. -/
theorem digitize_bin_assignment_amended (uniqueNs : List ℚ) (counts : List ℕ)
    (minS : ℕ)
    (hlen : uniqueNs.length = counts.length)
    (hsort : uniqueNs.Sorted (· < ·))
    (edges centers : List ℚ)
    (heq : determine_bins uniqueNs counts minS = some (edges, centers))
    (x : ℚ) (hx : x ∈ uniqueNs) :
    (edges.headD 0 < x →
        1 ≤ digitizeRight x edges ∧ digitizeRight x edges ≤ centers.length) ∧
    (x ≤ edges.headD 0 → digitizeRight x edges = 0) := by
  obtain ⟨top, scan, hu, hE, hscan, hC, hsorted, hmem, htop, hpairs⟩ :=
    determine_bins_core hlen hsort heq
  have hsortedLE : edges.Sorted (· ≤ ·) := by
    rw [hE, List.Sorted, List.pairwise_reverse, List.pairwise_cons]
    exact ⟨fun e he => htop e (hmem e he), hsorted.imp le_of_lt⟩
  have hne : edges ≠ [] := by
    rw [hE]
    simp
  have htopmem : top ∈ edges := by
    rw [hE, List.mem_reverse]
    exact List.mem_cons_self _ _
  have hxtop : x ≤ top := htop x hx
  have hcenlen : centers.length = edges.length - 1 := by
    rw [hC, binCenters_length]
  have hheadmem : edges.headD 0 ∈ edges := by
    cases h : edges with
    | nil => exact absurd h hne
    | cons a t =>
      rw [List.headD_cons]
      exact List.mem_cons_self a t
  have hmin : ∀ b ∈ edges, edges.headD 0 ≤ b := by
    intro b hb
    cases h : edges with
    | nil =>
      rw [h] at hb
      simp at hb
    | cons a t =>
      have hs := hsortedLE
      rw [h, List.sorted_cons] at hs
      rw [h] at hb
      rw [List.headD_cons]
      rcases List.mem_cons.1 hb with rfl | hbm
      · exact le_rfl
      · exact hs.1 b hbm
  constructor
  · intro hlt
    constructor
    · have h1 : 0 < edges.countP (fun b => decide (b < x)) :=
        List.countP_pos_iff.2 ⟨edges.headD 0, hheadmem, by simpa using hlt⟩
      unfold digitizeRight
      omega
    · have hnot : 0 < edges.countP (fun b => !(decide (b < x))) :=
        List.countP_pos_iff.2 ⟨top, htopmem, by simp [not_lt.2 hxtop]⟩
      have hsplit := countP_add_not (fun b => decide (b < x)) edges
      rw [hcenlen]
      unfold digitizeRight
      omega
  · intro hle
    unfold digitizeRight
    rw [List.countP_eq_zero]
    intro b hb
    simp only [decide_eq_true_eq, not_lt]
    exact le_trans hle (hmin b hb)

/-- C2 counterexample: for `determine_bins [1, 2, 3] [4, 4, 2] 3` the edges
are `[1, 2, 3]` with bins enumerated 1 and 2, yet the input value 1 (with 4
samples) digitizes to index 0: it is assigned to no bin at all. -/
theorem digitize_drops_lowest_value :
    determine_bins [1, 2, 3] [4, 4, 2] 3 = some ([1, 2, 3], [2, 3]) ∧
      (1 : ℚ) ∈ ([1, 2, 3] : List ℚ) ∧
      digitizeRight 1 [1, 2, 3] = 0 := by
  refine ⟨?_, by decide, by decide⟩
  norm_num [determine_bins, scanEdges, binCenters]

/-- C2 witness: at the same concrete call, the input value 2 lies strictly
above the lowest edge and lands in a bin index between 1 and 2, while the
input value 1 (at the lowest edge) receives index 0. -/
theorem digitize_bin_assignment_amended_witness :
    (1 ≤ digitizeRight 2 [1, 2, 3] ∧
        digitizeRight 2 [1, 2, 3] ≤ ([2, 3] : List ℚ).length) ∧
      digitizeRight 1 [1, 2, 3] = 0 :=
  ⟨(digitize_bin_assignment_amended [1, 2, 3] [4, 4, 2] 3 (by decide) (by decide)
        [1, 2, 3] [2, 3] (by norm_num [determine_bins, scanEdges, binCenters])
        2 (by decide)).1 (by decide),
   (digitize_bin_assignment_amended [1, 2, 3] [4, 4, 2] 3 (by decide) (by decide)
        [1, 2, 3] [2, 3] (by norm_num [determine_bins, scanEdges, binCenters])
        1 (by decide)).2 (by decide)⟩

/-- The centers returned by `determine_bins` are exactly `binCenters` of the
returned edges (no sortedness hypotheses needed). -/
lemma determine_bins_centers {uniqueNs : List ℚ} {counts : List ℕ} {minS : ℕ}
    {edges centers : List ℚ}
    (heq : determine_bins uniqueNs counts minS = some (edges, centers)) :
    centers = binCenters edges := by
  unfold determine_bins at heq
  cases hu : uniqueNs.getLast? with
  | none =>
    rw [hu] at heq
    simp at heq
  | some top =>
    rw [hu] at heq
    simp only [Option.some.injEq, Prod.mk.injEq] at heq
    obtain ⟨hE, hC⟩ := heq
    rw [← hC, hE]

/-- C9: for each pair of consecutive edges returned by `determine_bins`, the
corresponding center is the single boundary value (the upper edge) when the
edge difference is exactly one unit step, and the arithmetic midpoint of the
two edges otherwise; there is exactly one center per consecutive edge pair. -/
theorem bin_centers_spec (uniqueNs : List ℚ) (counts : List ℕ) (minS : ℕ)
    (edges centers : List ℚ)
    (heq : determine_bins uniqueNs counts minS = some (edges, centers))
    (i : ℕ) (hi : i + 1 < edges.length) :
    centers.length + 1 = edges.length ∧
    centers.getD i 0
      = if edges.getD (i + 1) 0 - edges.getD i 0 = 1 then edges.getD (i + 1) 0
        else (edges.getD i 0 + edges.getD (i + 1) 0) / 2 := by
  have hC := determine_bins_centers heq
  subst hC
  refine ⟨?_, binCenters_getD edges i hi⟩
  rw [binCenters_length]
  omega

/-- C9 witness: at `determine_bins [0, 2, 3] [4, 4, 4] 3` the edges are
`[0, 2, 3, 3]` and centers `[1, 3, 3]`; the lowest pair `(0, 2)` spans two
unit steps, so its center is the midpoint 1. -/
theorem bin_centers_spec_witness :
    ([1, 3, 3] : List ℚ).length + 1 = ([0, 2, 3, 3] : List ℚ).length ∧
    ([1, 3, 3] : List ℚ).getD 0 0
      = if ([0, 2, 3, 3] : List ℚ).getD (0 + 1) 0 - ([0, 2, 3, 3] : List ℚ).getD 0 0 = 1
        then ([0, 2, 3, 3] : List ℚ).getD (0 + 1) 0
        else (([0, 2, 3, 3] : List ℚ).getD 0 0 + ([0, 2, 3, 3] : List ℚ).getD (0 + 1) 0) / 2 :=
  bin_centers_spec [0, 2, 3] [4, 4, 4] 3 [0, 2, 3, 3] [1, 3, 3]
    (by norm_num [determine_bins, scanEdges, binCenters]) 0 (by decide)
